import Mathlib

set_option linter.unnecessarySeqFocus false

/-!
Verification development for the Fair-Hire resume pipeline.

The repository has two pipeline variants:
* `model2.py` — full pipeline: `read_docx`, `remove_sensitive_info`,
  `extract_entities`, `generate_report`, `process_resume`.
* `Model/backend/app.py` — Flask backend: `read_docx_from_bytes`,
  `generate_llama_report`, the `process_resume` route.

Text is embedded as `List Char`.  External models (the NER pipeline, spaCy
sentence segmentation, the generation models, the chat-template tokenizer)
are parameters of the embedded functions: each embedded function computes
exactly the deterministic processing the Python code performs on the values
those collaborators return.  Case folding and the regex word-boundary class
`\w` are modelled at the ASCII level (the taxonomy keywords and the spec
scenarios are ASCII).
-/

namespace FairHire

/-- Resume text, modelled as a list of characters. -/
abbrev Str := List Char

/-- ASCII model of the regex word class `\w` (`[a-zA-Z0-9_]`), used by the
`\b` boundaries in `remove_sensitive_info`'s patterns. -/
def isWordChar (c : Char) : Bool :=
  (65 ≤ c.toNat && c.toNat ≤ 90) || (97 ≤ c.toNat && c.toNat ≤ 122) ||
    (48 ≤ c.toNat && c.toNat ≤ 57) || c.toNat == 95

/-- ASCII lower-casing on code points, modelling `re.IGNORECASE` folding. -/
def lowerN (n : Nat) : Nat := if 65 ≤ n && n ≤ 90 then n + 32 else n

/-- Case-insensitive character comparison (ASCII folding). -/
def chEqCI (a b : Char) : Bool := lowerN a.toNat == lowerN b.toNat

theorem isWordChar_eq_of_chEqCI {a b : Char} (h : chEqCI a b = true) :
    isWordChar a = isWordChar b := by
  have h' : lowerN a.toNat = lowerN b.toNat := by simpa [chEqCI] using h
  rw [Bool.eq_iff_iff]
  simp only [isWordChar, Bool.or_eq_true, Bool.and_eq_true, decide_eq_true_eq,
    beq_iff_eq]
  simp only [lowerN] at h'
  split at h' <;> split at h' <;> simp_all <;> omega

/-- Case-insensitively match the literal `kw` as a prefix of `s`; on success
return the remaining suffix of `s`. -/
def matchKeyword : Str → Str → Option Str
  | [], s => some s
  | _ :: _, [] => none
  | k :: ks, c :: cs =>
    match chEqCI c k with
    | true => matchKeyword ks cs
    | false => none

theorem matchKeyword_length {kw s r : Str} (h : matchKeyword kw s = some r) :
    r.length + kw.length = s.length := by
  induction kw generalizing s with
  | nil =>
    simp only [matchKeyword, Option.some.injEq] at h
    simp [h]
  | cons k ks ih =>
    cases s with
    | nil => simp [matchKeyword] at h
    | cons c cs =>
      simp only [matchKeyword] at h
      cases hc : chEqCI c k with
      | false => rw [hc] at h; simp at h
      | true =>
        rw [hc] at h
        have := ih h
        simp only [List.length_cons]
        omega

/-- `true` when the text that follows a candidate match satisfies the closing
`\b`: end of string or a non-word character. -/
def wordEndOk : Str → Bool
  | [] => true
  | c :: _ => !isWordChar c

/-- Try the alternatives of one `\b(k₁|k₂|…)\b` pattern at the current
position, in order, as Python `re` does (an alternative whose closing `\b`
fails is skipped and the next alternative is tried). -/
def tryMatch : List Str → Str → Option Str
  | [], _ => none
  | [] :: kws, s => tryMatch kws s
  | (k :: krest) :: kws, s =>
    match matchKeyword (k :: krest) s with
    | some r =>
      match wordEndOk r with
      | true => some r
      | false => tryMatch kws s
    | none => tryMatch kws s

theorem tryMatch_length {kws : List Str} {s r : Str}
    (h : tryMatch kws s = some r) : r.length < s.length := by
  induction kws with
  | nil => simp [tryMatch] at h
  | cons kw kws ih =>
    cases kw with
    | nil => exact ih (by simpa [tryMatch] using h)
    | cons k krest =>
      simp only [tryMatch] at h
      cases hm : matchKeyword (k :: krest) s with
      | none => simp only [hm] at h; exact ih h
      | some r' =>
        simp only [hm] at h
        cases hw : wordEndOk r' with
        | false => simp only [hw] at h; exact ih h
        | true =>
          simp only [hw, Option.some.injEq] at h
          subst h
          have := matchKeyword_length hm
          simp only [List.length_cons] at this
          omega

theorem tryMatch_wordEndOk {kws : List Str} {s r : Str}
    (h : tryMatch kws s = some r) : wordEndOk r = true := by
  induction kws with
  | nil => simp [tryMatch] at h
  | cons kw kws ih =>
    cases kw with
    | nil => exact ih (by simpa [tryMatch] using h)
    | cons k krest =>
      simp only [tryMatch] at h
      cases hm : matchKeyword (k :: krest) s with
      | none => simp only [hm] at h; exact ih h
      | some r' =>
        simp only [hm] at h
        cases hw : wordEndOk r' with
        | false => simp only [hw] at h; exact ih h
        | true =>
          simp only [hw, Option.some.injEq] at h
          subst h
          exact hw

theorem tryMatch_exists {kws : List Str} {s r : Str}
    (h : tryMatch kws s = some r) :
    ∃ kw, kw ∈ kws ∧ kw ≠ [] ∧ matchKeyword kw s = some r := by
  induction kws with
  | nil => simp [tryMatch] at h
  | cons kw kws ih =>
    cases kw with
    | nil =>
      obtain ⟨kw', h1, h2, h3⟩ := ih (by simpa [tryMatch] using h)
      exact ⟨kw', List.mem_cons_of_mem _ h1, h2, h3⟩
    | cons k krest =>
      simp only [tryMatch] at h
      cases hm : matchKeyword (k :: krest) s with
      | none =>
        simp only [hm] at h
        obtain ⟨kw', h1, h2, h3⟩ := ih h
        exact ⟨kw', List.mem_cons_of_mem _ h1, h2, h3⟩
      | some r' =>
        simp only [hm] at h
        cases hw : wordEndOk r' with
        | false =>
          simp only [hw] at h
          obtain ⟨kw', h1, h2, h3⟩ := ih h
          exact ⟨kw', List.mem_cons_of_mem _ h1, h2, h3⟩
        | true =>
          simp only [hw, Option.some.injEq] at h
          subst h
          exact ⟨k :: krest, List.mem_cons_self _ _, by simp, hm⟩

/-- One pass of `re.sub(r"\b(…)\b", "", text, flags=re.IGNORECASE)`:
left-to-right scan over the input, removing each whole-word match.  `prevW`
records whether the character preceding the current position in the original
string is a word character (this is how `\b` is evaluated); a match is
attempted exactly at the positions where the opening `\b` can hold for a
word-initial keyword.  The scan consumes at least one character per step, so
`fuel := length of the input` makes the recursion structural (the `0` case
is never reached from `reSubWW`). -/
def subScanF (kws : List Str) : Nat → Str → Bool → Str
  | 0, _, _ => []
  | _ + 1, [], _ => []
  | f + 1, c :: cs, prevW =>
    match prevW with
    | true => c :: subScanF kws f cs (isWordChar c)
    | false =>
      match tryMatch kws (c :: cs) with
      | some rest => subScanF kws f rest true
      | none => c :: subScanF kws f cs (isWordChar c)

/-- `re.sub(pattern, "", text, flags=re.IGNORECASE)` for one whole-word
alternation pattern. -/
def reSubWW (kws : List Str) (s : Str) : Str := subScanF kws s.length s false

/-- First pattern of `remove_sensitive_info`. -/
def pat1 : List Str :=
  [("ethnicity").toList, ("race").toList, ("color").toList,
   ("religion").toList, ("gender").toList, ("age").toList,
   ("nationality").toList, ("marital status").toList]

/-- Second pattern of `remove_sensitive_info`. -/
def pat2 : List Str :=
  [("black").toList, ("white").toList, ("asian").toList,
   ("hispanic").toList, ("latino").toList, ("christian").toList,
   ("muslim").toList, ("jewish").toList, ("male").toList,
   ("female").toList]

/-- Third pattern of `remove_sensitive_info`. -/
def pat3 : List Str :=
  [("born on").toList, ("date of birth").toList, ("DOB").toList]

/-- All keywords of the fixed protected-attribute taxonomy, in pattern
order. -/
def allKeywords : List Str := pat1 ++ pat2 ++ pat3

/-- `model2.remove_sensitive_info`: the three case-insensitive whole-word
substitution passes, applied in source order. -/
def remove_sensitive_info (text : Str) : Str :=
  reSubWW pat3 (reSubWW pat2 (reSubWW pat1 text))

/-- `true` when `s` starts with a word character (the opening `\b` can hold
for a word-initial keyword at this position when the previous character is
not a word character). -/
def headIsWord : Str → Bool
  | [] => false
  | c :: _ => isWordChar c

/-- Shape invariant of every taxonomy keyword and each of its suffixes: no
two adjacent non-word characters, and the final character is a word
character (the empty suffix is allowed). -/
def kwShape : Str → Bool
  | [] => true
  | [c] => isWordChar c
  | c :: d :: rest => (isWordChar c || isWordChar d) && kwShape (d :: rest)

/-- `true` when the final character exists and is a word character. -/
def lastIsWord : Str → Bool
  | [] => false
  | [c] => isWordChar c
  | _ :: d :: rest => lastIsWord (d :: rest)

theorem kwShape_tail {c : Char} {t : Str} (h : kwShape (c :: t) = true) :
    kwShape t = true := by
  cases t with
  | nil => rfl
  | cons d r =>
    simp only [kwShape, Bool.and_eq_true] at h
    exact h.2

theorem kwShape_head_of_nonword {k : Char} {krest : Str}
    (h : kwShape (k :: krest) = true) (hk : isWordChar k = false) :
    headIsWord krest = true := by
  cases krest with
  | nil => simp [kwShape, hk] at h
  | cons d r =>
    simp only [kwShape, Bool.and_eq_true, Bool.or_eq_true] at h
    rcases h.1 with h1 | h1
    · rw [hk] at h1; exact absurd h1 (by simp)
    · simpa [headIsWord] using h1

/-- A case-insensitive whole-word match of `kw` at the current position:
`kw` matches literally and the closing `\b` holds. -/
def headWordMatch (kw s : Str) : Bool :=
  match matchKeyword kw s with
  | some r => wordEndOk r
  | none => false

/-- The case-insensitive scan of the claim: `true` when `kw` occurs in `s`
delimited by word boundaries on both sides.  `prevW` is the word-character
status of the character preceding `s`. -/
def hasWordOcc (kw : Str) : Str → Bool → Bool
  | [], _ => false
  | c :: cs, prevW =>
    ((!prevW) && headWordMatch kw (c :: cs)) || hasWordOcc kw cs (isWordChar c)

/-- The match of a whole-word occurrence is found by `tryMatch` when its
keyword is among the alternatives (some alternative then yields a match,
though possibly an earlier one). -/
theorem tryMatch_isSome_of_match {kws : List Str} {kw s r : Str}
    (hmem : kw ∈ kws) (hne : kw ≠ []) (hm : matchKeyword kw s = some r)
    (hw : wordEndOk r = true) : ∃ r', tryMatch kws s = some r' := by
  induction kws with
  | nil => cases hmem
  | cons kw0 kws ih =>
    cases hmem with
    | head =>
      cases kw with
      | nil => exact absurd rfl hne
      | cons k krest =>
        simp only [tryMatch, hm, hw]
        exact ⟨r, rfl⟩
    | tail _ hmem' =>
      cases kw0 with
      | nil => simpa only [tryMatch] using ih hmem'
      | cons k0 kr0 =>
        cases hm0 : matchKeyword (k0 :: kr0) s with
        | none => simpa only [tryMatch, hm0] using ih hmem'
        | some r0 =>
          cases hw0 : wordEndOk r0 with
          | false => simpa only [tryMatch, hm0, hw0] using ih hmem'
          | true => exact ⟨r0, by simp only [tryMatch, hm0, hw0]⟩

/-- Transfer of a whole-word prefix match from the output of a substitution
scan back to its input: if (a suffix of) a keyword with the shape invariant
matches at the start of `subScanF kws f s pScan` with a closing boundary,
then it already matched at the start of `s` with a closing boundary.
`pScan = false` requires the pending keyword suffix to begin with a word
character (true initially, and maintained because a non-word keyword
character can only be consumed after a word character). -/
theorem match_subScanF {kws : List Str} :
    ∀ (f : Nat) (kwrem s : Str) (pScan : Bool) (r' : Str),
      s.length ≤ f → kwShape kwrem = true →
      (pScan = false → headIsWord kwrem = true) →
      matchKeyword kwrem (subScanF kws f s pScan) = some r' →
      wordEndOk r' = true →
      ∃ r, matchKeyword kwrem s = some r ∧ wordEndOk r = true := by
  intro f
  induction f with
  | zero =>
    intro kwrem s pScan r' hlen _ _ hm hw
    have hs : s = [] := List.length_eq_zero.mp (Nat.le_zero.mp hlen)
    subst hs
    cases kwrem with
    | nil =>
      simp only [subScanF, matchKeyword, Option.some.injEq] at hm
      exact ⟨[], rfl, by rw [hm]; exact hw⟩
    | cons k ks => simp [subScanF, matchKeyword] at hm
  | succ f ih =>
    intro kwrem s pScan r' hlen hshape hpk hm hw
    cases s with
    | nil =>
      cases kwrem with
      | nil =>
        simp only [subScanF, matchKeyword, Option.some.injEq] at hm
        exact ⟨[], rfl, by rw [hm]; exact hw⟩
      | cons k ks => simp [subScanF, matchKeyword] at hm
    | cons c cs =>
      have hlen' : cs.length ≤ f := by
        simp only [List.length_cons] at hlen; omega
      cases pScan with
      | true =>
        simp only [subScanF] at hm
        cases kwrem with
        | nil =>
          simp only [matchKeyword, Option.some.injEq] at hm
          refine ⟨c :: cs, rfl, ?_⟩
          rw [← hm] at hw
          simpa only [wordEndOk] using hw
        | cons k krest =>
          simp only [matchKeyword] at hm
          cases hc : chEqCI c k with
          | false => simp only [hc] at hm; exact Option.noConfusion hm
          | true =>
            simp only [hc] at hm
            have hpk' : isWordChar c = false → headIsWord krest = true := by
              intro h0
              refine kwShape_head_of_nonword hshape ?_
              rw [← isWordChar_eq_of_chEqCI hc]
              exact h0
            obtain ⟨r, hr, hwr⟩ :=
              ih krest cs (isWordChar c) r' hlen' (kwShape_tail hshape) hpk' hm hw
            exact ⟨r, by simp only [matchKeyword, hc]; exact hr, hwr⟩
      | false =>
        have hkh : headIsWord kwrem = true := hpk rfl
        cases kwrem with
        | nil => simp [headIsWord] at hkh
        | cons k krest =>
          have hkw : isWordChar k = true := by simpa [headIsWord] using hkh
          simp only [subScanF] at hm
          cases ht : tryMatch kws (c :: cs) with
          | none =>
            simp only [ht] at hm
            simp only [matchKeyword] at hm
            cases hc : chEqCI c k with
            | false => simp only [hc] at hm; exact Option.noConfusion hm
            | true =>
              simp only [hc] at hm
              have hpk' : isWordChar c = false → headIsWord krest = true := by
                intro h0
                refine kwShape_head_of_nonword hshape ?_
                rw [← isWordChar_eq_of_chEqCI hc]
                exact h0
              obtain ⟨r, hr, hwr⟩ :=
                ih krest cs (isWordChar c) r' hlen' (kwShape_tail hshape) hpk' hm hw
              exact ⟨r, by simp only [matchKeyword, hc]; exact hr, hwr⟩
          | some rest =>
            simp only [ht] at hm
            exfalso
            have hrw : wordEndOk rest = true := tryMatch_wordEndOk ht
            cases rest with
            | nil =>
              have : subScanF kws f [] true = [] := by
                cases f <;> rfl
              rw [this] at hm
              simp [matchKeyword] at hm
            | cons d ds =>
              have hd : isWordChar d = false := by
                simpa only [wordEndOk, Bool.not_eq_true'] using hrw
              have hf : (d :: ds).length ≤ f := by
                have := tryMatch_length ht
                simp only [List.length_cons] at this hlen ⊢
                omega
              cases f with
              | zero => simp at hf
              | succ f' =>
                simp only [subScanF, matchKeyword] at hm
                cases hc : chEqCI d k with
                | false => simp only [hc] at hm; exact Option.noConfusion hm
                | true =>
                  have : isWordChar d = isWordChar k := isWordChar_eq_of_chEqCI hc
                  rw [hd, hkw] at this
                  exact absurd this (by simp)

/-- After a pass consumes a keyword match, occurrence-freedom transfers to
the remaining suffix (whose preceding character is then the final — word —
character of the consumed keyword). -/
theorem hasWordOcc_after_match {kw : Str} :
    ∀ (m s rest : Str) (p : Bool), lastIsWord m = true →
      matchKeyword m s = some rest → hasWordOcc kw s p = false →
      hasWordOcc kw rest true = false := by
  intro m
  induction m with
  | nil => intro s rest p hlast _ _; simp [lastIsWord] at hlast
  | cons k ks ih =>
    intro s rest p hlast hm hocc
    cases s with
    | nil => simp [matchKeyword] at hm
    | cons c cs =>
      simp only [matchKeyword] at hm
      cases hc : chEqCI c k with
      | false => simp only [hc] at hm; exact Option.noConfusion hm
      | true =>
        simp only [hc] at hm
        have hocc' : hasWordOcc kw cs (isWordChar c) = false := by
          simp only [hasWordOcc, Bool.or_eq_false_iff] at hocc
          exact hocc.2
        cases ks with
        | nil =>
          simp only [matchKeyword, Option.some.injEq] at hm
          subst hm
          have hkword : isWordChar k = true := by
            simpa [lastIsWord] using hlast
          have : isWordChar c = true := by
            rw [isWordChar_eq_of_chEqCI hc]; exact hkword
          rw [← this]
          exact hocc'
        | cons k2 ks2 =>
          have hlast' : lastIsWord (k2 :: ks2) = true := by
            simpa [lastIsWord] using hlast
          exact ih cs rest (isWordChar c) hlast' hm hocc'

/-- Completeness of one substitution pass for its own keyword list: no
keyword of the list survives as a whole-word occurrence in the output.
The disjunctive hypothesis relates the word-character status of the
character preceding the current input position (`pScan`, on the original
string, which drives match attempts) and the one preceding the
corresponding output position (`pOut`, on the output, which drives
occurrence checking): they agree except right after a removed match, where
the input predecessor is the keyword's final word character but the output
predecessor is the non-word left flank — and the current input then starts
with a non-word character. -/
theorem subScan_removes {kws : List Str} {kw : Str}
    (hmem : kw ∈ kws) (hshape : kwShape kw = true)
    (hhead : headIsWord kw = true) :
    ∀ (f : Nat) (s : Str) (pScan pOut : Bool), s.length ≤ f →
      (pOut = pScan ∨ (pOut = false ∧ pScan = true ∧ wordEndOk s = true)) →
      hasWordOcc kw (subScanF kws f s pScan) pOut = false := by
  intro f
  induction f with
  | zero =>
    intro s pScan pOut _ _
    simp [subScanF, hasWordOcc]
  | succ f ih =>
    intro s pScan pOut hlen hinv
    cases s with
    | nil => simp [subScanF, hasWordOcc]
    | cons c cs =>
      have hlen' : cs.length ≤ f := by
        simp only [List.length_cons] at hlen; omega
      have hkne : kw ≠ [] := by
        cases kw with
        | nil => simp [headIsWord] at hhead
        | cons a b => simp
      cases pScan with
      | true =>
        simp only [subScanF, hasWordOcc, Bool.or_eq_false_iff]
        constructor
        · cases pOut with
          | true => simp
          | false =>
            rcases hinv with h | ⟨_, _, hnw⟩
            · exact absurd h (by simp)
            · have hc : isWordChar c = false := by
                simpa only [wordEndOk, Bool.not_eq_true'] using hnw
              cases kw with
              | nil => simp [headIsWord] at hhead
              | cons k krest =>
                have hkword : isWordChar k = true := by
                  simpa [headIsWord] using hhead
                simp only [Bool.not_false, Bool.true_and, headWordMatch,
                  matchKeyword]
                cases hcc : chEqCI c k with
                | true =>
                  have := isWordChar_eq_of_chEqCI hcc
                  rw [hc, hkword] at this
                  exact absurd this (by simp)
                | false => simp
        · exact ih cs (isWordChar c) (isWordChar c) hlen' (Or.inl rfl)
      | false =>
        have hpOut : pOut = false := by
          rcases hinv with h | ⟨h, _, _⟩
          · exact h
          · exact h
        subst hpOut
        cases ht : tryMatch kws (c :: cs) with
        | some rest =>
          have hout : subScanF kws (f + 1) (c :: cs) false =
              subScanF kws f rest true := by
            simp only [subScanF, ht]
          rw [hout]
          refine ih rest true false ?_ (Or.inr ⟨rfl, rfl, tryMatch_wordEndOk ht⟩)
          have := tryMatch_length ht
          simp only [List.length_cons] at this hlen
          omega
        | none =>
          have hout : subScanF kws (f + 1) (c :: cs) false =
              c :: subScanF kws f cs (isWordChar c) := by
            simp only [subScanF, ht]
          rw [hout]
          simp only [hasWordOcc, Bool.or_eq_false_iff]
          constructor
          · simp only [Bool.not_false, Bool.true_and]
            cases hhm : headWordMatch kw (c :: subScanF kws f cs (isWordChar c))
              with
            | false => rfl
            | true =>
              exfalso
              rw [← hout] at hhm
              simp only [headWordMatch] at hhm
              cases hmk : matchKeyword kw (subScanF kws (f + 1) (c :: cs) false)
                with
              | none => simp only [hmk] at hhm; exact Bool.noConfusion hhm
              | some r' =>
                simp only [hmk] at hhm
                obtain ⟨r, hr, hwr⟩ := match_subScanF (f + 1) kw (c :: cs) false
                  r' hlen hshape (fun _ => hhead) hmk hhm
                obtain ⟨r2, hr2⟩ := tryMatch_isSome_of_match hmem hkne hr hwr
                rw [ht] at hr2
                exact Option.noConfusion hr2
          · exact ih cs (isWordChar c) (isWordChar c) hlen' (Or.inl rfl)

/-- Preservation: a substitution pass whose keywords all end in a word
character never creates a new whole-word occurrence of a well-shaped
keyword `kw`: if `kw` does not occur in the input, it does not occur in the
output. -/
theorem subScan_preserves {kws : List Str} {kw : Str}
    (hkws : ∀ m ∈ kws, lastIsWord m = true)
    (hshape : kwShape kw = true) (hhead : headIsWord kw = true) :
    ∀ (f : Nat) (s : Str) (pScan pOut : Bool), s.length ≤ f →
      (pOut = pScan ∨ (pOut = false ∧ pScan = true ∧ wordEndOk s = true)) →
      hasWordOcc kw s pScan = false →
      hasWordOcc kw (subScanF kws f s pScan) pOut = false := by
  intro f
  induction f with
  | zero =>
    intro s pScan pOut _ _ _
    simp [subScanF, hasWordOcc]
  | succ f ih =>
    intro s pScan pOut hlen hinv hocc
    cases s with
    | nil => simp [subScanF, hasWordOcc]
    | cons c cs =>
      have hlen' : cs.length ≤ f := by
        simp only [List.length_cons] at hlen; omega
      have hocc' : hasWordOcc kw cs (isWordChar c) = false := by
        simp only [hasWordOcc, Bool.or_eq_false_iff] at hocc
        exact hocc.2
      cases pScan with
      | true =>
        simp only [subScanF, hasWordOcc, Bool.or_eq_false_iff]
        constructor
        · cases pOut with
          | true => simp
          | false =>
            rcases hinv with h | ⟨_, _, hnw⟩
            · exact absurd h (by simp)
            · have hc : isWordChar c = false := by
                simpa only [wordEndOk, Bool.not_eq_true'] using hnw
              cases kw with
              | nil => simp [headIsWord] at hhead
              | cons k krest =>
                have hkword : isWordChar k = true := by
                  simpa [headIsWord] using hhead
                simp only [Bool.not_false, Bool.true_and, headWordMatch,
                  matchKeyword]
                cases hcc : chEqCI c k with
                | true =>
                  have := isWordChar_eq_of_chEqCI hcc
                  rw [hc, hkword] at this
                  exact absurd this (by simp)
                | false => simp
        · exact ih cs (isWordChar c) (isWordChar c) hlen' (Or.inl rfl) hocc'
      | false =>
        have hpOut : pOut = false := by
          rcases hinv with h | ⟨h, _, _⟩
          · exact h
          · exact h
        subst hpOut
        cases ht : tryMatch kws (c :: cs) with
        | some rest =>
          have hout : subScanF kws (f + 1) (c :: cs) false =
              subScanF kws f rest true := by
            simp only [subScanF, ht]
          rw [hout]
          obtain ⟨m, hmmem, hmne, hmk⟩ := tryMatch_exists ht
          have hoccr : hasWordOcc kw rest true = false :=
            hasWordOcc_after_match m (c :: cs) rest false (hkws m hmmem) hmk hocc
          refine ih rest true false ?_
            (Or.inr ⟨rfl, rfl, tryMatch_wordEndOk ht⟩) hoccr
          have := tryMatch_length ht
          simp only [List.length_cons] at this hlen
          omega
        | none =>
          have hout : subScanF kws (f + 1) (c :: cs) false =
              c :: subScanF kws f cs (isWordChar c) := by
            simp only [subScanF, ht]
          rw [hout]
          simp only [hasWordOcc, Bool.or_eq_false_iff]
          constructor
          · simp only [Bool.not_false, Bool.true_and]
            cases hhm : headWordMatch kw (c :: subScanF kws f cs (isWordChar c))
              with
            | false => rfl
            | true =>
              exfalso
              rw [← hout] at hhm
              simp only [headWordMatch] at hhm
              cases hmk : matchKeyword kw (subScanF kws (f + 1) (c :: cs) false)
                with
              | none => simp only [hmk] at hhm; exact Bool.noConfusion hhm
              | some r' =>
                simp only [hmk] at hhm
                obtain ⟨r, hr, hwr⟩ := match_subScanF (f + 1) kw (c :: cs) false
                  r' hlen hshape (fun _ => hhead) hmk hhm
                have : hasWordOcc kw (c :: cs) false = true := by
                  simp only [hasWordOcc, Bool.not_false, Bool.true_and,
                    headWordMatch, hr, hwr, Bool.true_or]
                rw [this] at hocc
                exact Bool.noConfusion hocc
          · exact ih cs (isWordChar c) (isWordChar c) hlen' (Or.inl rfl) hocc'

/-- One pass removes every whole-word occurrence of its own keywords. -/
theorem reSubWW_removes {kws : List Str} {kw : Str} (hmem : kw ∈ kws)
    (hshape : kwShape kw = true) (hhead : headIsWord kw = true) (s : Str) :
    hasWordOcc kw (reSubWW kws s) false = false :=
  subScan_removes hmem hshape hhead s.length s false false le_rfl (Or.inl rfl)

/-- One pass never introduces a whole-word occurrence of a well-shaped
keyword. -/
theorem reSubWW_preserves {kws : List Str} {kw : Str}
    (hkws : ∀ m ∈ kws, lastIsWord m = true)
    (hshape : kwShape kw = true) (hhead : headIsWord kw = true) {s : Str}
    (hocc : hasWordOcc kw s false = false) :
    hasWordOcc kw (reSubWW kws s) false = false :=
  subScan_preserves hkws hshape hhead s.length s false false le_rfl
    (Or.inl rfl) hocc

theorem allKeywords_good : ∀ kw ∈ allKeywords,
    kwShape kw = true ∧ headIsWord kw = true ∧ lastIsWord kw = true := by
  decide

theorem pat1_last : ∀ m ∈ pat1, lastIsWord m = true := by decide

theorem pat2_last : ∀ m ∈ pat2, lastIsWord m = true := by decide

theorem pat3_last : ∀ m ∈ pat3, lastIsWord m = true := by decide

/-- Whole-word completeness of the sensitive-content filter with respect to
its own taxonomy: no keyword of any of the three patterns survives the
three passes as a word-boundary-delimited occurrence. -/
theorem filter_removes_all (text : Str) :
    ∀ kw ∈ allKeywords, hasWordOcc kw (remove_sensitive_info text) false = false := by
  intro kw hkw
  obtain ⟨hshape, hhead, _⟩ := allKeywords_good kw hkw
  have hmem : kw ∈ pat1 ∨ kw ∈ pat2 ∨ kw ∈ pat3 := by
    simpa [allKeywords, List.mem_append, or_assoc] using hkw
  unfold remove_sensitive_info
  rcases hmem with h1 | h2 | h3
  · exact reSubWW_preserves pat3_last hshape hhead
      (reSubWW_preserves pat2_last hshape hhead
        (reSubWW_removes h1 hshape hhead text))
  · exact reSubWW_preserves pat3_last hshape hhead
      (reSubWW_removes h2 hshape hhead _)
  · exact reSubWW_removes h3 hshape hhead _

/-- Python `s.startswith(p)` (first argument is the prefix). -/
def startsWithL : Str → Str → Bool
  | [], _ => true
  | _ :: _, [] => false
  | p :: ps, c :: cs => (p == c) && startsWithL ps cs

/-- Python `s.endswith(p)`. -/
def endsWithL (p s : Str) : Bool := startsWithL p.reverse s.reverse

/-- Python `sep.join(xs)`. -/
def intercalateL (sep : Str) : List Str → Str
  | [] => []
  | [x] => x
  | x :: y :: xs => x ++ sep ++ intercalateL sep (y :: xs)

/-- Structural worker for `pyReplace`; the fuel is the length of the text,
enough because every step consumes at least one character. -/
def pyReplaceF (pat repl : Str) : Nat → Str → Str
  | 0, s => s
  | _ + 1, [] => []
  | f + 1, c :: cs =>
    match pat with
    | [] => c :: cs
    | p :: ps =>
      match startsWithL (p :: ps) (c :: cs) with
      | true => repl ++ pyReplaceF pat repl f (List.drop ps.length cs)
      | false => c :: pyReplaceF pat repl f cs

/-- Python `s.replace(pat, repl)`: replace every non-overlapping occurrence,
left to right.  (The empty-pattern case, which Python treats specially, is
never used by the embedded code: the only patterns are `" ##"` and a model
end-of-sequence token.) -/
def pyReplace (s pat repl : Str) : Str :=
  match pat with
  | [] => s
  | _ :: _ => pyReplaceF pat repl s.length s

/-- `needle in hay` on Python strings (case-sensitive). -/
def containsSub (needle : Str) : Str → Bool
  | [] => needle == ([] : Str)
  | c :: t => startsWithL needle (c :: t) || containsSub needle t

/-- Case-insensitive prefix test (ASCII folding). -/
def startsWithCI : Str → Str → Bool
  | [], _ => true
  | _ :: _, [] => false
  | p :: ps, c :: cs => chEqCI c p && startsWithCI ps cs

/-- `needle in hay.lower()` for an ASCII-lowercase `needle`: case-insensitive
substring containment. -/
def containsSubCI (needle : Str) : Str → Bool
  | [] => needle == ([] : Str)
  | c :: t => startsWithCI needle (c :: t) || containsSubCI needle t

/-- Python whitespace characters stripped by `str.strip()` (ASCII). -/
def isPySpace (c : Char) : Bool := c.toNat == 32 || (9 ≤ c.toNat && c.toNat ≤ 13)

/-- Python `s.strip()`. -/
def pyStrip (s : Str) : Str :=
  ((s.dropWhile isPySpace).reverse.dropWhile isPySpace).reverse

/-- `model2.read_docx`, factored over the external container parser: the
`docx` library yields the paragraph texts in document order, and the
function joins them with newlines (an empty document yields the empty
text). -/
def read_docx (paragraphs : List Str) : Str := intercalateL (("\n").toList) paragraphs

/-- Split at newline characters (inverse of the reader's join for
newline-free paragraphs). -/
def splitOnNl : Str → List Str
  | [] => [[]]
  | c :: cs =>
    match c == '\n' with
    | true => [] :: splitOnNl cs
    | false =>
      match splitOnNl cs with
      | [] => [[c]]
      | g :: gs => (c :: g) :: gs

theorem splitOnNl_no_nl {p : Str} (h : '\n' ∉ p) : splitOnNl p = [p] := by
  induction p with
  | nil => rfl
  | cons c cs ih =>
    have hc : (c == '\n') = false := by
      simp only [List.mem_cons, not_or] at h
      simp only [beq_eq_false_iff_ne, ne_eq]
      exact fun hcc => h.1 hcc.symm
    have ih' := ih (by simp only [List.mem_cons, not_or] at h; exact h.2)
    simp only [splitOnNl, hc, ih']

theorem splitOnNl_append {p rest : Str} (h : '\n' ∉ p) :
    splitOnNl (p ++ '\n' :: rest) = p :: splitOnNl rest := by
  induction p with
  | nil => simp [splitOnNl]
  | cons c cs ih =>
    have hc : (c == '\n') = false := by
      simp only [List.mem_cons, not_or] at h
      simp only [beq_eq_false_iff_ne, ne_eq]
      exact fun hcc => h.1 hcc.symm
    have ih' := ih (by simp only [List.mem_cons, not_or] at h; exact h.2)
    simp only [List.cons_append, splitOnNl, hc]
    rw [show cs.append ('\n' :: rest) = cs ++ '\n' :: rest from rfl, ih']

/-- Round trip: splitting the joined text recovers the paragraph list, for
nonempty documents with newline-free paragraphs. -/
theorem read_docx_roundTrip : ∀ (ps : List Str), ps ≠ [] →
    (∀ p ∈ ps, '\n' ∉ p) → splitOnNl (read_docx ps) = ps := by
  intro ps
  induction ps with
  | nil => intro h _; exact absurd rfl h
  | cons p ps ih =>
    intro _ hnl
    cases ps with
    | nil =>
      simp only [read_docx, intercalateL]
      exact splitOnNl_no_nl (hnl p (by simp))
    | cons q qs =>
      have hjoin : read_docx (p :: q :: qs) = p ++ '\n' :: read_docx (q :: qs) := by
        simp [read_docx, intercalateL]
      rw [hjoin, splitOnNl_append (hnl p (by simp))]
      rw [ih (by simp) (fun x hx => hnl x (List.mem_cons_of_mem _ hx))]

/-- One token-classification result of the NER pipeline: the entity tag
(for example `"B-PER"`, `"I-ORG"`) and the token text. -/
structure NerEntity where
  entity : Str
  word : Str
deriving DecidableEq

/-- `" ".join(current_name).replace(" ##", "")` — merge accumulated person
tokens into one name candidate, stripping sub-word continuation markers. -/
def mergeTokens (cur : List Str) : Str :=
  pyReplace (intercalateL ((" ").toList) cur) ((" ##").toList) []

/-- `entity["entity"].startswith("B-PER") or entity["entity"].startswith("I-PER")`. -/
def isPerTag (e : NerEntity) : Bool :=
  startsWithL (("B-PER").toList) e.entity ||
    startsWithL (("I-PER").toList) e.entity

/-- `entity["entity"].startswith("B-ORG")`. -/
def isOrgBTag (e : NerEntity) : Bool := startsWithL (("B-ORG").toList) e.entity

/-- The entity loop of `model2.extract_entities`, returning the name
candidates and organization entries in commit order.  A person-tagged
result extends the accumulator; on any other tag a nonempty accumulator is
committed and reset; independently, every `B-ORG` result appends its word
(with `" ##"` stripped).  An accumulator still pending when the input ends
is discarded, exactly as in the source. -/
def extractLoop (cur : List Str) : List NerEntity → List Str × List Str
  | [] => ([], [])
  | e :: rest =>
    let commitNow : List Str :=
      match isPerTag e with
      | true => []
      | false =>
        match cur with
        | [] => []
        | _ :: _ => [mergeTokens cur]
    let cur' : List Str :=
      match isPerTag e with
      | true => cur ++ [e.word]
      | false => []
    let orgNow : List Str :=
      match isOrgBTag e with
      | true => [pyReplace e.word ((" ##").toList) []]
      | false => []
    let res := extractLoop cur' rest
    (commitNow ++ res.1, orgNow ++ res.2)

/-- Sentence keyword sets of the spaCy pass. -/
def eduKeywords : List Str :=
  [("education").toList, ("degree").toList, ("university").toList,
   ("college").toList]

def skillKeywords : List Str :=
  [("skills").toList, ("proficient").toList, ("expertise").toList]

/-- `any(keyword in sent.text.lower() for keyword in kws)`. -/
def sentenceHasKw (kws : List Str) (sent : Str) : Bool :=
  kws.any (fun k => containsSubCI k sent)

/-- The four entity categories of `model2.extract_entities`. -/
structure Entities where
  name : List Str
  organization : List Str
  skills : List Str
  education : List Str
deriving DecidableEq

/-- Admissible behaviours of Python `list(set(xs))`: some duplicate-free
enumeration of the elements of `xs`, in an order the language does not
specify (string hashing is seed-randomized across processes). -/
def pySetAdmissible (f : List Str → List Str) : Prop :=
  ∀ l, (f l).Nodup ∧ ∀ x, x ∈ f l ↔ x ∈ l

/-- `model2.extract_entities`, factored over its external collaborators:
`nerResults` is what `ner_pipeline(text)` returned, `sents` the spaCy
sentence texts of the input, and `setOrder` the enumeration order used by
`list(set(...))`.  The `name` category is the deduplicated candidate list
truncated to one element. -/
def extract_entities (nerResults : List NerEntity) (sents : List Str)
    (setOrder : List Str → List Str) : Entities :=
  let pr := extractLoop [] nerResults
  let edu := (sents.filter (fun s => sentenceHasKw eduKeywords s)).map pyStrip
  let sk := (sents.filter (fun s => sentenceHasKw skillKeywords s)).map pyStrip
  { name := (setOrder pr.1).take 1
    organization := setOrder pr.2
    skills := setOrder sk
    education := setOrder edu }

theorem startsWithL_BPER_not_BORG {s : Str}
    (h : startsWithL (("B-PER").toList) s = true) :
    startsWithL (("B-ORG").toList) s = false := by
  match s with
  | [] => exact absurd h (by simp [startsWithL])
  | [a] => exact absurd h (by simp [startsWithL])
  | [a, b] => exact absurd h (by simp [startsWithL])
  | a :: b :: c :: t =>
    have h' : startsWithL ['B', '-', 'P', 'E', 'R'] (a :: b :: c :: t) = true := h
    simp only [startsWithL, Bool.and_eq_true, beq_iff_eq] at h'
    obtain ⟨hB, hd, hP, _⟩ := h'
    subst hB; subst hd; subst hP
    show startsWithL ['B', '-', 'O', 'R', 'G'] ('B' :: '-' :: 'P' :: t) = false
    have hop : ('O' == 'P') = false := by decide
    simp [startsWithL, hop]

theorem startsWithL_IPER_not_BORG {s : Str}
    (h : startsWithL (("I-PER").toList) s = true) :
    startsWithL (("B-ORG").toList) s = false := by
  match s with
  | [] => exact absurd h (by simp [startsWithL])
  | a :: t =>
    have h' : startsWithL ['I', '-', 'P', 'E', 'R'] (a :: t) = true := h
    simp only [startsWithL, Bool.and_eq_true, beq_iff_eq] at h'
    obtain ⟨hI, _⟩ := h'
    subst hI
    show startsWithL ['B', '-', 'O', 'R', 'G'] ('I' :: t) = false
    have hbi : ('B' == 'I') = false := by decide
    simp [startsWithL, hbi]

theorem isOrgBTag_eq_false_of_isPerTag {e : NerEntity}
    (h : isPerTag e = true) : isOrgBTag e = false := by
  simp only [isPerTag, Bool.or_eq_true] at h
  rcases h with h | h
  · exact startsWithL_BPER_not_BORG h
  · exact startsWithL_IPER_not_BORG h

/-- A run consisting solely of person-tagged results commits nothing: the
pending accumulator is discarded at the end of the input. -/
theorem extractLoop_allPer {l : List NerEntity}
    (h : ∀ e ∈ l, isPerTag e = true) :
    ∀ cur, extractLoop cur l = ([], []) := by
  induction l with
  | nil => intro _; rfl
  | cons e rest ih =>
    intro cur
    have hper : isPerTag e = true := h e (List.mem_cons_self _ _)
    have horg : isOrgBTag e = false := isOrgBTag_eq_false_of_isPerTag hper
    simp only [extractLoop, hper, horg]
    rw [ih (fun x hx => h x (List.mem_cons_of_mem _ hx))]
    simp

/-- Appending person-tagged results at the end of the NER output changes
neither the committed names nor the organizations. -/
theorem extractLoop_append_trailing {l₂ : List NerEntity}
    (h : ∀ e ∈ l₂, isPerTag e = true) :
    ∀ (l₁ : List NerEntity) (cur : List Str),
      extractLoop cur (l₁ ++ l₂) = extractLoop cur l₁ := by
  intro l₁
  induction l₁ with
  | nil =>
    intro cur
    simp only [List.nil_append]
    rw [extractLoop_allPer h]
    rfl
  | cons e rest ih =>
    intro cur
    simp only [List.cons_append, extractLoop, List.append_eq]
    rw [ih]

/-- `list` of a Python `set` built by later insertions first: admissible. -/
theorem dedup_pySetAdmissible : pySetAdmissible (fun l => l.dedup) :=
  fun l => ⟨l.nodup_dedup, fun _ => List.mem_dedup⟩

theorem revDedup_pySetAdmissible :
    pySetAdmissible (fun l => l.reverse.dedup) := by
  intro l
  refine ⟨List.nodup_dedup _, fun x => ?_⟩
  rw [List.mem_dedup, List.mem_reverse]

theorem pySetAdmissible_nil {f : List Str → List Str}
    (hf : pySetAdmissible f) : f [] = [] := by
  obtain ⟨_, hmem⟩ := hf []
  cases hfl : f [] with
  | nil => rfl
  | cons a t =>
    have : a ∈ f [] := by rw [hfl]; exact List.mem_cons_self _ _
    have := (hmem a).1 this
    exact absurd this (List.not_mem_nil a)

/-- Prompt template of `model2.generate_report` (the f-string literal with
its four interpolations: first name candidate or `Not Provided`, and
comma-joined category lists or `Not Provided`). -/
def generate_report_prompt (entities : Entities) : Str :=
  ("\n    Candidate Report\n\n    Name: ").toList ++
  (match entities.name with
   | [] => ("Not Provided").toList
   | n :: _ => n) ++
  ("\n    Qualifications: ").toList ++
  (match entities.education with
   | [] => ("Not Provided").toList
   | _ :: _ => intercalateL ((", ").toList) entities.education) ++
  ("\n    Experience: ").toList ++
  (match entities.organization with
   | [] => ("Not Provided").toList
   | _ :: _ => intercalateL ((", ").toList) entities.organization) ++
  ("\n    Skills: ").toList ++
  (match entities.skills with
   | [] => ("Not Provided").toList
   | _ :: _ => intercalateL ((", ").toList) entities.skills) ++
  ("\n\n    Summarize the above information in a professional tone for HR review, focusing on qualifications, experience, and skills.\n    ").toList

/-- Generation configuration, with the temperature and nucleus threshold
scaled by ten (the embedded code never needs fractional arithmetic on
them). -/
structure GenConfig where
  do_sample : Bool
  temperature10 : Nat
  top_p10 : Nat
  seed : Option Nat
  max_tokens : Nat
deriving DecidableEq

/-- The effective generation configuration of `model2.generate_report`:
the call `generator(prompt, max_length=200, num_return_sequences=1,
truncation=True)` passes no sampling flag, but the `distilgpt2` hub config
ships `task_specific_params` for text generation with `do_sample=True`,
which the `transformers` pipeline applies — so the call samples, with the
default temperature `1.0` and nucleus threshold `1.0`, and no seed is ever
set. -/
def model2_genConfig : GenConfig :=
  { do_sample := true, temperature10 := 10, top_p10 := 10, seed := none,
    max_tokens := 200 }

/-- The generation configuration hardcoded in `app.generate_llama_report`:
`do_sample=True, temperature=0.4, top_p=0.9, max_new_tokens=700`, no seed. -/
def app_genConfig : GenConfig :=
  { do_sample := true, temperature10 := 4, top_p10 := 9, seed := none,
    max_tokens := 700 }

/-- A configuration is deterministic when it decodes greedily
(`do_sample=False` or temperature zero) or fixes the sampling seed. -/
def deterministicConfig (c : GenConfig) : Bool :=
  !c.do_sample || c.temperature10 == 0 || !(c.seed == none)

/-- Dispatch of a generation call under a configuration.  `greedy` is the
model's deterministic (greedy/zero-temperature) decoding function; `sample`
additionally consumes entropy, either the fixed seed or the fresh draw of
this run. -/
def runGeneration (c : GenConfig) (greedy : Str → Str)
    (sample : Str → Nat → Str) (draw : Nat) (prompt : Str) : Str :=
  match c.do_sample with
  | false => greedy prompt
  | true =>
    match c.temperature10 with
    | 0 => greedy prompt
    | _ + 1 =>
      match c.seed with
      | some sd => sample prompt sd
      | none => sample prompt draw

/-- `model2.generate_report`: build the prompt from the entity bundle and
invoke the text-generation model on it (one returned sequence). -/
def generate_report (gen : Str → Str) (entities : Entities) : Str :=
  gen (generate_report_prompt entities)

/-- `model2.process_resume`, factored over the external collaborators:
read, filter, extract, synthesize.  (The file write of the report is
outside the embedding; the function's value is the returned report.) -/
def process_resume (nerF : Str → List NerEntity) (sentF : Str → List Str)
    (setOrder : List Str → List Str) (gen : Str → Str)
    (paragraphs : List Str) : Str :=
  let text := read_docx paragraphs
  let cleaned := remove_sensitive_info text
  let entities := extract_entities (nerF cleaned) (sentF cleaned) setOrder
  generate_report gen entities

/-- `model2.process_resume` with its generation call dispatched through the
source's effective generation configuration and an explicit entropy draw
for the run. -/
def process_resume_draw (nerF : Str → List NerEntity)
    (sentF : Str → List Str) (setOrder : List Str → List Str)
    (greedy : Str → Str) (sample : Str → Nat → Str) (draw : Nat)
    (paragraphs : List Str) : Str :=
  process_resume nerF sentF setOrder
    (runGeneration model2_genConfig greedy sample draw) paragraphs

/-- A Python exception escaping a statement, classified the way the route's
`except` clauses discriminate. -/
inductive PyError where
  | valueError (msg : Str)
  | runtimeError (msg : Str)
  | otherError (msg : Str)
deriving DecidableEq

/-- One chat message handed to `tokenizer.apply_chat_template`. -/
structure ChatMsg where
  role : Str
  content : Str

/-- The system message content of `app.generate_llama_report`. -/
def llama_system_content : Str :=
  ("You are an expert HR AI assistant specializing in bias-free resume screening. Your task is to extract and summarize ONLY objective, professional information from resumes: qualifications, experience, and skills. It is IMPERATIVE that you COMPLETELY OMIT any and all personal or demographic details that could introduce bias. Maintain a strictly professional, neutral, and concise tone. Your output should be a clear, structured report.").toList

/-- The apostrophe character (used inside the user-prompt literal). -/
def apos : Char := Char.ofNat 39

/-- The user message of `app.generate_llama_report` up to the interpolation
of `resume_text`. -/
def llama_user_prefix : Str :=
  ("\n        Analyze the following resume content and provide a summary for HR review.\n\n        STRICT EXCLUSION RULES (Do NOT include these under ANY circumstances):\n        - Candidate").toList ++
  [apos] ++
  ("s Name (first, last, full names, initials, nicknames).\n        - Any personal identifying information.\n        - Gender (pronouns like he/she, or terms like male/female, woman/man, etc.).\n        - Age, Date of Birth, or any age-related references (e.g., \"graduated in X\", \"born in 19XX\").\n        - Ethnicity, Race, Religion, or Nationality.\n        - Marital Status or family information.\n        - Contact information (email, phone number, physical address, personal social media links, personal websites).\n        - Photos or image descriptions.\n        - Any political affiliations, non-professional awards, or hobbies.\n        - Any information that is not directly related to professional qualifications, experience, or demonstrable skills.\n\n        Focus ONLY on the following professional categories:\n        - Academic Qualifications (degrees, institutions, major fields).\n        - Work Experience (company names, job titles, key responsibilities, quantifiable achievements/impact).\n        - Technical and Professional Skills (programming languages, software, tools, methodologies, and relevant professional soft skills like problem-solving, communication, teamwork).\n\n        Format the report clearly with distinct headings: \"Qualifications\", \"Experience\", and \"Skills\". Use bullet points or clear paragraphs.\n\n        Resume Content:\n        ").toList

/-- The user message after the interpolation of `resume_text`. -/
def llama_user_suffix : Str :=
  ("\n\n        Candidate Report (Bias-Free):\n        ").toList

/-- The full user message: the raw resume text is interpolated verbatim. -/
def llama_user_content (resume_text : Str) : Str :=
  llama_user_prefix ++ resume_text ++ llama_user_suffix

/-- The `messages` list built by `app.generate_llama_report`. -/
def llama_messages (resume_text : Str) : List ChatMsg :=
  [⟨("system").toList, llama_system_content⟩,
   ⟨("user").toList, llama_user_content resume_text⟩]

/-- `app.generate_llama_report`, factored over the chat-template rendering
`tmpl` and the generate-and-decode call `gen` (whose failures are the
exceptions of the `try` body).  When the readiness flag is down it raises
`RuntimeError("LLaMA model not loaded.")` before any generation work; a
failure inside the `try` is wrapped as
`RuntimeError(f"Failed to generate report: {e}")`; on success the decoded
text has the end-of-sequence token removed and is stripped. -/
def generate_llama_report (model_loaded : Bool) (tmpl : List ChatMsg → Str)
    (gen : Str → Except Str Str) (eos : Str) (resume_text : Str) :
    Except PyError Str :=
  match model_loaded with
  | false => .error (.runtimeError (("LLaMA model not loaded.").toList))
  | true =>
    match gen (tmpl (llama_messages resume_text)) with
    | .ok out => .ok (pyStrip (pyReplace out eos []))
    | .error e =>
      .error (.runtimeError ((("Failed to generate report: ").toList) ++ e))

/-- `app.read_docx_from_bytes`, factored over the container parser outcome:
any parser failure is re-raised as `ValueError("Could not read DOCX
file.")`; a parsed document yields the newline-joined paragraph texts. -/
def read_docx_from_bytes (parse : Except PyError (List Str)) :
    Except PyError Str :=
  match parse with
  | .ok paragraphs => .ok (read_docx paragraphs)
  | .error _ => .error (.valueError (("Could not read DOCX file.").toList))

/-- The value of the resume text that `app.process_resume` hands to
`generate_llama_report`: the reader output itself — no filtering step
exists in this pipeline variant. -/
def app_generate_input (paragraphs : List Str) : Str := read_docx paragraphs

/-- The HTTP outcome of the route: a JSON error payload with a status, a
JSON report payload, or an exception that escaped the handler uncaught. -/
inductive FlaskResult where
  | jsonError (status : Nat) (msg : Str)
  | jsonReport (report : Str)
  | uncaught (exn : Str)
deriving DecidableEq

/-- The `try` body of the route: decode the base64 content, read the
document, generate the report. -/
def app_try_block (b64 : Except PyError Str)
    (docxParse : Str → Except PyError (List Str)) (model_loaded : Bool)
    (tmpl : List ChatMsg → Str) (gen : Str → Except Str Str) (eos : Str) :
    Except PyError Str :=
  match b64 with
  | .error e => .error e
  | .ok docx_bytes =>
    match read_docx_from_bytes (docxParse docx_bytes) with
    | .error e => .error e
    | .ok raw_resume_text =>
      generate_llama_report model_loaded tmpl gen eos raw_resume_text

/-- The route's `except` clauses: `ValueError → 400 str(ve)`,
`RuntimeError → 500 str(re)`, anything else → 500 with the generic body. -/
def app_handle : Except PyError Str → FlaskResult
  | .ok rep => .jsonReport rep
  | .error (.valueError m) => .jsonError 400 m
  | .error (.runtimeError m) => .jsonError 500 m
  | .error (.otherError _) =>
    .jsonError 500 (("An unexpected error occurred on the server.").toList)

/-- The `app.process_resume` route.  The validation statements run in source
order; in particular `file_name.endswith('.docx')` is evaluated before the
`try` block, so a missing `fileName` raises `AttributeError` outside every
handler of the function. -/
def app_process_resume (is_json : Bool) (fileContent : Option Str)
    (fileName : Option Str) (b64decode : Str → Except PyError Str)
    (docxParse : Str → Except PyError (List Str)) (model_loaded : Bool)
    (tmpl : List ChatMsg → Str) (gen : Str → Except Str Str) (eos : Str) :
    FlaskResult :=
  match is_json with
  | false => .jsonError 400 (("Request must be JSON").toList)
  | true =>
    match fileContent with
    | none => .jsonError 400 (("No file content provided").toList)
    | some content =>
      match content with
      | [] => .jsonError 400 (("No file content provided").toList)
      | _ :: _ =>
        match fileName with
        | none => .uncaught (("AttributeError").toList)
        | some nm =>
          match endsWithL ((".docx").toList) nm with
          | false => .jsonError 400 (("Only .docx files are supported").toList)
          | true =>
            app_handle
              (app_try_block (b64decode content) docxParse model_loaded tmpl
                gen eos)

/-- The `cleaned_text` of `model2.process_resume`: the filter applied to the
reader output, which is what the entity extractor (and through it the
synthesizer prompt) receives. -/
def model2_cleaned_text (paragraphs : List Str) : Str :=
  remove_sensitive_info (read_docx paragraphs)

/-! ## Claim theorems -/

/-- C1 (counterexample): the claim as stated — no case-insensitive
*substring* match against any taxonomy keyword survives the filter — is
false: the patterns use `\b` word boundaries, so the input `"image"` passes
through unchanged and still contains the taxonomy keyword `"age"` as a
substring. -/
theorem C1_counterexample :
    ("age").toList ∈ allKeywords ∧
    remove_sensitive_info (("image").toList) = ("image").toList ∧
    containsSubCI (("age").toList) (remove_sensitive_info (("image").toList)) =
      true := by
  refine ⟨by decide, by decide, by decide⟩

/-- C1 (amended): filter completeness with respect to its own pattern list
holds at the granularity the patterns specify — for every input string, no
taxonomy keyword survives in the output as a case-insensitive occurrence
delimited by word boundaries on both sides. -/
theorem C1_filter_complete (text : Str) :
    ∀ kw ∈ allKeywords,
      hasWordOcc kw (remove_sensitive_info text) false = false :=
  filter_removes_all text

theorem C1_witness :
    hasWordOcc (("gender").toList)
      (remove_sensitive_info (("Gender: male, age 30").toList)) false =
      false :=
  C1_filter_complete (("Gender: male, age 30").toList) (("gender").toList)
    (by decide)

/-- C2 (counterexample): the claim that in the lighter mode the text passed
to the generation model is the filtered text is false — `app.process_resume`
passes the reader output to `generate_llama_report` with no filtering step,
so for the one-paragraph document `"hispanic"` the generation input differs
from the filtered text (which would be empty). -/
theorem C2_counterexample :
    app_generate_input [("hispanic").toList] ≠
      remove_sensitive_info (read_docx [("hispanic").toList]) := by
  decide

/-- C2 (amended): in the full pipeline (`model2.process_resume`) the filter
runs before the extractor and the synthesizer — the text both models
receive is `cleaned_text`, in which no taxonomy keyword survives as a
whole word; in the lighter mode (`app.process_resume`) no lexical filter
runs at all: the generation step receives the raw reader output, and a
protected-attribute keyword in the document reaches it verbatim. -/
theorem C2_order_amended :
    (∀ (nerF : Str → List NerEntity) (sentF : Str → List Str)
       (setOrder : List Str → List Str) (gen : Str → Str)
       (paragraphs : List Str),
       process_resume nerF sentF setOrder gen paragraphs =
         generate_report gen
           (extract_entities (nerF (model2_cleaned_text paragraphs))
             (sentF (model2_cleaned_text paragraphs)) setOrder)) ∧
    (∀ (paragraphs : List Str) (kw : Str), kw ∈ allKeywords →
       hasWordOcc kw (model2_cleaned_text paragraphs) false = false) ∧
    (∀ paragraphs, app_generate_input paragraphs = read_docx paragraphs) ∧
    hasWordOcc (("hispanic").toList)
      (app_generate_input [("hispanic applicant").toList]) false = true := by
  refine ⟨fun _ _ _ _ _ => rfl, ?_, fun _ => rfl, by decide⟩
  intro paragraphs kw hkw
  exact filter_removes_all _ kw hkw

theorem C2_witness :
    hasWordOcc (("male").toList)
      (model2_cleaned_text [("John is male").toList]) false = false :=
  C2_order_amended.2.1 [("John is male").toList] (("male").toList) (by decide)

/-- C3 (counterexample): on the spec scenario input the filter removes only
the standalone word `"age"`, not the span `"age 34"` — the digits `"34"`
survive in the filtered text, contradicting the claim that the synthesizer
input contains no occurrence of `"34"`. -/
theorem C3_counterexample :
    containsSub (("34").toList)
      (remove_sensitive_info
        (("John Doe, male, age 34, worked at Acme Corp as Engineer. Skills: Java, Leadership.").toList)) =
      true := by
  decide

/-- C3 (amended): on the scenario input the filter removes the words
`"male"` and `"age"` (leaving the surrounding separators), producing
exactly `"John Doe, ,  34, worked at Acme Corp as Engineer. Skills: Java,
Leadership."`; the filtered text contains no occurrence of `"male"` but
still contains `"34"`. -/
theorem C3_scenario_amended :
    remove_sensitive_info
        (("John Doe, male, age 34, worked at Acme Corp as Engineer. Skills: Java, Leadership.").toList) =
      ("John Doe, ,  34, worked at Acme Corp as Engineer. Skills: Java, Leadership.").toList ∧
    containsSub (("male").toList)
      (("John Doe, ,  34, worked at Acme Corp as Engineer. Skills: Java, Leadership.").toList) =
      false ∧
    containsSub (("34").toList)
      (("John Doe, ,  34, worked at Acme Corp as Engineer. Skills: Java, Leadership.").toList) =
      true := by
  refine ⟨by decide, by decide, by decide⟩

/-- NER output with two person candidates, each committed by a following
non-person result. -/
def nerTwoNames : List NerEntity :=
  [⟨("B-PER").toList, ("John").toList⟩, ⟨("O").toList, (",").toList⟩,
   ⟨("B-PER").toList, ("Jane").toList⟩, ⟨("O").toList, (".").toList⟩]

/-- C4: the cardinality half of the claim holds (`[:1]` keeps at most one
entry), but the `list(set(names))[:1]` cleanup contradicts the source's own
`# Keep first name detected` comment: Python set enumeration order is
unspecified (string hashes are seed-randomized across processes), and under
two admissible enumeration orders the kept candidate differs — the order
that enumerates later insertions first keeps `"Jane"` although `"John"` is
the first merged candidate in text order. -/
theorem C4_name_order_bug :
    (∀ (ner : List NerEntity) (sents : List Str)
       (setOrder : List Str → List Str),
       (extract_entities ner sents setOrder).name.length ≤ 1) ∧
    (extractLoop [] nerTwoNames).1 = [("John").toList, ("Jane").toList] ∧
    pySetAdmissible (fun l => l.dedup) ∧
    pySetAdmissible (fun l => l.reverse.dedup) ∧
    (extract_entities nerTwoNames [] (fun l => l.dedup)).name =
      [("John").toList] ∧
    (extract_entities nerTwoNames [] (fun l => l.reverse.dedup)).name =
      [("Jane").toList] := by
  refine ⟨?_, by decide, dedup_pySetAdmissible, revDedup_pySetAdmissible,
    by decide, by decide⟩
  intro ner sents setOrder
  simp only [extract_entities]
  rw [List.length_take]
  exact min_le_left _ _

/-- NER output of a two-token organization: begin tag then inside tag. -/
def nerAcme : List NerEntity :=
  [⟨("B-ORG").toList, ("Acme").toList⟩, ⟨("I-ORG").toList, ("Corp").toList⟩]

/-- C5 (counterexample): contiguous organization tokens are not merged —
for the NER output `B-ORG "Acme", I-ORG "Corp"` the organization category
is `["Acme"]`, and `"Acme Corp"` does not appear as an entry. -/
theorem C5_counterexample :
    (extract_entities nerAcme [] (fun l => l.dedup)).organization =
      [("Acme").toList] ∧
    (("Acme Corp").toList ∈
      (extract_entities nerAcme [] (fun l => l.dedup)).organization) = False := by
  refine ⟨by decide, by decide⟩

/-- C5 (amended): the entity loop commits exactly the begin-tagged
organization tokens, each individually with `" ##"` stripped, in text
order; inside-tagged continuation tokens are dropped, so a multi-token
organization contributes only its begin token. -/
theorem C5_org_amended :
    ∀ (ner : List NerEntity) (cur : List Str),
      (extractLoop cur ner).2 =
        (ner.filter (fun e => isOrgBTag e)).map
          (fun e => pyReplace e.word ((" ##").toList) []) := by
  intro ner
  induction ner with
  | nil => intro _; rfl
  | cons e rest ih =>
    intro cur
    simp only [extractLoop, List.filter_cons]
    cases ho : isOrgBTag e with
    | true => simp [ho, ih]
    | false => simp [ho, ih]

/-- C6: the reader joins the paragraph texts in document order, unmodified
(splitting the join recovers them); a zero-paragraph document yields the
empty text, and `read_docx_from_bytes` returns it as a value, not an
error. -/
theorem C6_reader_roundtrip :
    (∀ (ps : List Str), ps ≠ [] → (∀ p ∈ ps, '\n' ∉ p) →
       splitOnNl (read_docx ps) = ps) ∧
    read_docx [] = [] ∧
    read_docx_from_bytes (.ok []) = .ok [] := by
  refine ⟨read_docx_roundTrip, rfl, rfl⟩

theorem C6_witness :
    splitOnNl
        (read_docx [("Alice Smith").toList, ("Skills: Python, SQL").toList]) =
      [("Alice Smith").toList, ("Skills: Python, SQL").toList] :=
  C6_reader_roundtrip.1 [("Alice Smith").toList, ("Skills: Python, SQL").toList]
    (by decide) (by decide)

/-- C7: `generate_llama_report` returns the model-not-ready error
(`RuntimeError("LLaMA model not loaded.")`) exactly when the readiness flag
is down, for every generation collaborator (so generation is never
consulted); when the model is loaded and generation fails with cause `e`,
the result is the wrapping error `RuntimeError("Failed to generate report:
" + e)` — the cause is preserved and no partial report is returned. -/
theorem C7_generation_errors :
    (∀ (tmpl : List ChatMsg → Str) (gen : Str → Except Str Str) (eos t : Str),
       generate_llama_report false tmpl gen eos t =
         .error (.runtimeError (("LLaMA model not loaded.").toList))) ∧
    (∀ (tmpl : List ChatMsg → Str) (gen : Str → Except Str Str) (eos t e : Str),
       gen (tmpl (llama_messages t)) = .error e →
       generate_llama_report true tmpl gen eos t =
         .error (.runtimeError ((("Failed to generate report: ").toList) ++ e))) ∧
    (∀ (ml : Bool) (tmpl : List ChatMsg → Str) (gen : Str → Except Str Str)
       (eos t : Str),
       generate_llama_report ml tmpl gen eos t =
           .error (.runtimeError (("LLaMA model not loaded.").toList)) ↔
         ml = false) := by
  refine ⟨fun _ _ _ _ => rfl, ?_, ?_⟩
  · intro tmpl gen eos t e hg
    simp only [generate_llama_report, hg]
  · intro ml tmpl gen eos t
    constructor
    · intro h
      cases ml with
      | false => rfl
      | true =>
        exfalso
        simp only [generate_llama_report] at h
        cases hg : gen (tmpl (llama_messages t)) with
        | ok out => simp only [hg] at h; exact Except.noConfusion h
        | error e =>
          simp only [hg, Except.error.injEq, PyError.runtimeError.injEq] at h
          have hF : ((("Failed to generate report: ").toList : Str) ++ e).head? =
              some 'F' := rfl
          rw [h] at hF
          exact absurd hF (by decide)
    · intro h; subst h; rfl

theorem C7_witness :
    generate_llama_report true (fun _ => []) (fun _ => .error (("boom").toList))
        [] [] =
      .error (.runtimeError
        ((("Failed to generate report: ").toList) ++ ("boom").toList)) :=
  C7_generation_errors.2.1 (fun _ => []) (fun _ => .error (("boom").toList))
    [] [] (("boom").toList) rfl

/-- C8 (counterexample): the claim presumes a deterministic generation
configuration (temperature zero or a fixed sampling seed), but neither
pipeline provides one — model2's effective configuration samples
(`do_sample=True` via the `distilgpt2` task-specific parameters, no seed)
and app.py hardcodes `do_sample=True, temperature=0.4` with no seed — and
under model2's actual configuration two runs on an identical input with
identical collaborators but different per-run entropy produce different
report text. -/
theorem C8_counterexample :
    deterministicConfig model2_genConfig = false ∧
    deterministicConfig app_genConfig = false ∧
    process_resume_draw (fun _ => []) (fun _ => []) (fun l => l.dedup)
        (fun p => p) (fun _ n => List.replicate n ('x')) 0 [] ≠
      process_resume_draw (fun _ => []) (fun _ => []) (fun l => l.dedup)
        (fun p => p) (fun _ n => List.replicate n ('x')) 1 [] := by
  refine ⟨rfl, rfl, by decide⟩

/-- C8 (amended): two-run equality holds only modulo sampling.  Neither
pipeline's generation configuration is deterministic; under the effective
configurations the dispatched generation is the sampler applied to the
prompt and the fresh per-run draw (so the draw is the sole source of
run-to-run variation: the model2 pipeline's report is exactly the sampler
applied to the prompt built from the filtered, extracted content and the
draw — two runs with identical input and identical draws agree); and under
any deterministic configuration (`do_sample=False`, temperature zero, or a
fixed seed — none of which the code provides) generation is independent of
the draw. -/
theorem C8_sampling_amended :
    deterministicConfig model2_genConfig = false ∧
    deterministicConfig app_genConfig = false ∧
    (∀ (greedy : Str → Str) (sample : Str → Nat → Str) (d : Nat)
       (prompt : Str),
       runGeneration model2_genConfig greedy sample d prompt =
           sample prompt d ∧
         runGeneration app_genConfig greedy sample d prompt =
           sample prompt d) ∧
    (∀ (nerF : Str → List NerEntity) (sentF : Str → List Str)
       (setOrder : List Str → List Str) (greedy : Str → Str)
       (sample : Str → Nat → Str) (d : Nat) (paragraphs : List Str),
       process_resume_draw nerF sentF setOrder greedy sample d paragraphs =
         sample
           (generate_report_prompt
             (extract_entities (nerF (model2_cleaned_text paragraphs))
               (sentF (model2_cleaned_text paragraphs)) setOrder)) d) ∧
    (∀ (c : GenConfig), deterministicConfig c = true →
       ∀ (greedy : Str → Str) (sample : Str → Nat → Str) (d d' : Nat)
         (prompt : Str),
         runGeneration c greedy sample d prompt =
           runGeneration c greedy sample d' prompt) := by
  refine ⟨rfl, rfl, fun _ _ _ _ => ⟨rfl, rfl⟩, fun _ _ _ _ _ _ _ => rfl, ?_⟩
  intro c hc greedy sample d d' prompt
  obtain ⟨ds, t10, tp, sd, mt⟩ := c
  simp only [deterministicConfig] at hc
  simp only [runGeneration]
  cases ds with
  | false => rfl
  | true =>
    cases t10 with
    | zero => rfl
    | succ t =>
      cases sd with
      | some s0 => rfl
      | none => simp at hc

theorem C8_witness :
    runGeneration ⟨true, 0, 9, none, 700⟩ (fun p => p) (fun p _ => p ++ p) 0
        [] =
      runGeneration ⟨true, 0, 9, none, 700⟩ (fun p => p) (fun p _ => p ++ p) 1
        [] :=
  C8_sampling_amended.2.2.2.2 ⟨true, 0, 9, none, 700⟩ (by decide)
    (fun p => p) (fun p _ => p ++ p) 0 1 []

/-- C9: a merged person candidate is committed to the name list only when a
non-person result follows it, so person-tagged results at the end of the
NER output never contribute — appending such a trailing run changes the
extracted bundle not at all, and when every result is person-tagged the
name category is empty. -/
theorem C9_trailing_person_dropped :
    (∀ (ner trail : List NerEntity) (sents : List Str)
       (setOrder : List Str → List Str),
       (∀ e ∈ trail, isPerTag e = true) →
       extract_entities (ner ++ trail) sents setOrder =
         extract_entities ner sents setOrder) ∧
    (∀ (ner : List NerEntity) (sents : List Str)
       (setOrder : List Str → List Str),
       pySetAdmissible setOrder → (∀ e ∈ ner, isPerTag e = true) →
       (extract_entities ner sents setOrder).name = []) := by
  constructor
  · intro ner trail sents setOrder htrail
    simp only [extract_entities]
    rw [extractLoop_append_trailing htrail]
  · intro ner sents setOrder hadm hall
    simp only [extract_entities]
    rw [extractLoop_allPer hall]
    rw [pySetAdmissible_nil hadm]
    rfl

/-- An all-person NER output (one candidate, never committed). -/
def nerAllPer : List NerEntity :=
  [⟨("B-PER").toList, ("John").toList⟩, ⟨("I-PER").toList, ("Doe").toList⟩]

theorem C9_witness :
    extract_entities (nerTwoNames ++ nerAllPer) [] (fun l => l.dedup) =
      extract_entities nerTwoNames [] (fun l => l.dedup) ∧
    (extract_entities nerAllPer [] (fun l => l.dedup)).name = [] :=
  ⟨C9_trailing_person_dropped.1 nerTwoNames nerAllPer [] (fun l => l.dedup)
      (by decide),
   C9_trailing_person_dropped.2 nerAllPer [] (fun l => l.dedup)
      dedup_pySetAdmissible (by decide)⟩

/-- C10 (counterexample): a JSON request with non-empty content and no
`fileName` does not produce the handled 500 response with body `"An
unexpected error occurred on the server."` — the route ends with an
uncaught `AttributeError` instead. -/
theorem C10_counterexample :
    app_process_resume true (some (("QUJD").toList)) none (fun c => .ok c)
        (fun _ => .ok []) true (fun _ => []) (fun _ => .ok []) [] =
      FlaskResult.uncaught (("AttributeError").toList) ∧
    app_process_resume true (some (("QUJD").toList)) none (fun c => .ok c)
        (fun _ => .ok []) true (fun _ => []) (fun _ => .ok []) [] ≠
      FlaskResult.jsonError 500
        (("An unexpected error occurred on the server.").toList) := by
  refine ⟨rfl, by decide⟩

/-- C10 (amended): for every JSON request with non-empty `fileContent` and
missing `fileName`, the route evaluates `None.endswith('.docx')` and the
resulting `AttributeError` is raised *before* the `try` block, so it
escapes the function uncaught (no handler of the function — in particular
not the generic one — produces the response). -/
theorem C10_missing_fileName :
    ∀ (content : Str) (b64decode : Str → Except PyError Str)
      (docxParse : Str → Except PyError (List Str)) (model_loaded : Bool)
      (tmpl : List ChatMsg → Str) (gen : Str → Except Str Str) (eos : Str),
      content ≠ [] →
      app_process_resume true (some content) none b64decode docxParse
          model_loaded tmpl gen eos =
        FlaskResult.uncaught (("AttributeError").toList) := by
  intro content b64decode docxParse model_loaded tmpl gen eos hne
  cases content with
  | nil => exact absurd rfl hne
  | cons c cs => rfl

theorem C10_witness :
    app_process_resume true (some (("QUJD").toList)) none (fun c => .ok c)
        (fun _ => .ok [("doc").toList]) true (fun _ => []) (fun p => .ok p)
        [] =
      FlaskResult.uncaught (("AttributeError").toList) :=
  C10_missing_fileName (("QUJD").toList) (fun c => .ok c)
    (fun _ => .ok [("doc").toList]) true (fun _ => []) (fun p => .ok p) []
    (by decide)

end FairHire
